import Mathlib

/-!
Verification of the FlexServ-Deployer deterministic identity/configuration core:
the base-62 codec (src/base62.rs), the deployment hash (src/server.rs),
pod/volume identifier derivation (src/deployment/pod.rs), and the backend
parameter model with CLI-argument serialization (src/backend.rs).

Shallow embedding conventions:
* Rust `usize`/`u8` arithmetic is modelled with `Nat` (no overflow occurs in the
  modelled code paths: all quantities stay far below 2^64).
* Byte sequences (`&[u8]`, `Vec<u8>`) are `List Nat`; strings are Lean `String`
  or `List Char`.
* The `f64` constant `BASE62_LOG2 = 5.954196310386875` is modelled by its exact
  value as an IEEE-754 double, the rational 3351914535593639 / 2^49.  The
  remainder terms of `encode_len`/`decode_len` (arguments 1..31 resp. 1..42,
  far below any rounding boundary) are modelled by exact rational arithmetic
  with that constant, which agrees with the float computation at every possible
  remainder.  The unbounded floor of `is_valid_encoding_length` is modelled
  bit-exactly, with the IEEE round-to-nearest-even of the `usize → f64`
  conversion and of the multiplication made explicit (`lenFloor`).
* Rust `HashMap` iteration (used by `to_cli_args`) has no specified order; the
  parameter map is therefore modelled as the association list of its entries in
  iteration order, and properties quantify over (or exhibit) such orders.
* The external `sha2::Sha256` digest is not part of this repository; functions
  that call it are parameterized by a digest function `String → List Nat`,
  constrained where needed to return 32 bytes.
* A Rust `panic!` is modelled by `Option.none`; fallible code returns `Except`.
-/

namespace FlexServ

/-! ## src/base62.rs : constants and length helpers -/

def BASE256BLOCK_LEN : Nat := 32

def BASE62BLOCK_LEN : Nat := 43

/-- Numerator of the exact rational value of the `f64` constant
`BASE62_LOG2 = 5.954196310386875` (the double nearest to `log2 62`). -/
def B62L_NUM : Nat := 3351914535593639

/-- Denominator of the exact rational value of `BASE62_LOG2`: `2^49`. -/
def B62L_DEN : Nat := 562949953421312

def ALPHABET_SIZE : Nat := 62

def ALPHABET : List Char :=
  ['0', '1', '2', '3', '4', '5', '6', '7', '8', '9', 'A', 'B', 'C', 'D', 'E',
   'F', 'G', 'H', 'I', 'J', 'K', 'L', 'M', 'N', 'O', 'P', 'Q', 'R', 'S', 'T',
   'U', 'V', 'W', 'X', 'Y', 'Z', 'a', 'b', 'c', 'd', 'e', 'f', 'g', 'h', 'i',
   'j', 'k', 'l', 'm', 'n', 'o', 'p', 'q', 'r', 's', 't', 'u', 'v', 'w', 'x',
   'y', 'z']

/-- The 256-entry reverse lookup table `ALPHABET_VERT` from src/base62.rs:
value of a byte as a base-62 digit, 255 for bytes outside the alphabet. -/
def ALPHABET_VERT : List Nat :=
  [255, 255, 255, 255, 255, 255, 255, 255, 255, 255, 255, 255, 255, 255, 255,
   255, 255, 255, 255, 255, 255, 255, 255, 255, 255, 255, 255, 255, 255, 255,
   255, 255, 255, 255, 255, 255, 255, 255, 255, 255, 255, 255, 255, 255, 255,
   255, 255, 255, 0, 1, 2, 3, 4, 5, 6, 7, 8, 9, 255, 255, 255, 255, 255, 255,
   255, 10, 11, 12, 13, 14, 15, 16, 17, 18, 19, 20, 21, 22, 23, 24, 25, 26,
   27, 28, 29, 30, 31, 32, 33, 34, 35, 255, 255, 255, 255, 255, 255, 36, 37,
   38, 39, 40, 41, 42, 43, 44, 45, 46, 47, 48, 49, 50, 51, 52, 53, 54, 55,
   56, 57, 58, 59, 60, 61, 255, 255, 255, 255, 255, 255, 255, 255, 255, 255,
   255, 255, 255, 255, 255, 255, 255, 255, 255, 255, 255, 255, 255, 255, 255,
   255, 255, 255, 255, 255, 255, 255, 255, 255, 255, 255, 255, 255, 255, 255,
   255, 255, 255, 255, 255, 255, 255, 255, 255, 255, 255, 255, 255, 255, 255,
   255, 255, 255, 255, 255, 255, 255, 255, 255, 255, 255, 255, 255, 255, 255,
   255, 255, 255, 255, 255, 255, 255, 255, 255, 255, 255, 255, 255, 255, 255,
   255, 255, 255, 255, 255, 255, 255, 255, 255, 255, 255, 255, 255, 255, 255,
   255, 255, 255, 255, 255, 255, 255, 255, 255, 255, 255, 255, 255, 255, 255,
   255, 255, 255, 255, 255, 255, 255, 255, 255, 255, 255, 255, 255, 255, 255,
   255, 255, 255, 255, 255, 255, 255, 255, 255, 255, 255, 255, 255, 255, 255,
   255]

/-- Translation of `encode_len` (src/base62.rs:40-51).  The remainder term
`((rem * 8) as f64 / BASE62_LOG2).ceil()` is modelled by the exact rational
ceiling `⌈8·rem·B62L_DEN / B62L_NUM⌉`; for every `rem` in `1..31` the float and
the exact computation give the same value. -/
def encode_len (n : Nat) : Nat :=
  if n = BASE256BLOCK_LEN then BASE62BLOCK_LEN
  else
    let n_block := n / BASE256BLOCK_LEN
    let out := n_block * BASE62BLOCK_LEN
    let rem := n % BASE256BLOCK_LEN
    if rem > 0 then out + (rem * 8 * B62L_DEN + (B62L_NUM - 1)) / B62L_NUM
    else out

/-- Translation of `decode_len` (src/base62.rs:53-61), with the float floor
`(rem as f64 * BASE62_LOG2 / 8).floor()` modelled by exact rational floor. -/
def decode_len (n : Nat) : Nat :=
  let n_block := n / BASE62BLOCK_LEN
  let out := n_block * BASE256BLOCK_LEN
  let rem := n % BASE62BLOCK_LEN
  if rem > 0 then out + rem * B62L_NUM / (B62L_DEN * 8)
  else out

/-- Bit length of a natural number, with explicit fuel so that it reduces in
the kernel (fuel 128 covers every quantity occurring here). -/
def bitlen : Nat → Nat → Nat
  | 0, _ => 0
  | fuel + 1, x => if x = 0 then 0 else bitlen fuel (x / 2) + 1

/-- Quotient `n / d` rounded to the nearest integer, ties to even — the IEEE
754 default rounding, used to model the roundings inside the `f64`
computations of src/base62.rs. -/
def rneDiv (n d : Nat) : Nat :=
  let q := n / d
  let r := n % d
  if 2 * r < d then q
  else if d < 2 * r then q + 1
  else if q % 2 = 0 then q else q + 1

/-- Bit-exact translation of the inner helper `f` of
`is_valid_encoding_length` (src/base62.rs:63-68):
`((x as f64) * BASE62_LOG2 / 8f64).floor() as usize`, with every IEEE 754
rounding modelled:
* `x as f64` rounds `x` to a 53-bit mantissa (nearest, ties to even) — the
  identity for `x < 2^53`;
* the product of that value with the `BASE62_LOG2` double (the exact integer
  `xf * B62L_NUM`, scaled by `2^-49`) is rounded to a 53-bit mantissa the same
  way;
* division by `8f64` only shifts the exponent and `.floor()` is exact, so the
  result is the floor of `m * 2^s / 2^52`.
All intermediate values are normal (no underflow/overflow for `x < 2^64`). -/
def lenFloor (x : Nat) : Nat :=
  let bx := bitlen 128 x
  let xf := if bx ≤ 53 then x else rneDiv x (2 ^ (bx - 53)) * 2 ^ (bx - 53)
  let p := xf * B62L_NUM
  let bp := bitlen 128 p
  if bp ≤ 53 then p / (B62L_DEN * 8)
  else
    let s := bp - 53
    let m := rneDiv p (2 ^ s)
    if 52 ≤ s then m * 2 ^ (s - 52) else m / 2 ^ (52 - s)

/-- Translation of `is_valid_encoding_length` (src/base62.rs:63-68).  Callers
only invoke it with `n ≥ 1`; `n - 1` is Nat subtraction as in `usize`. -/
def is_valid_encoding_length (n : Nat) : Bool :=
  lenFloor n ≠ lenFloor (n - 1)

/-! ## src/base62.rs : encode -/

/-- Translation of the inner carry-propagation loop of `encode`
(src/base62.rs:78-91) viewed from the least-significant end: the Rust loop runs
`j` from `cap-1` down to `0` over the big-endian buffer `dst`, which is the
same as walking the reversed (little-endian) digit list front to back.  `c`
counts loop iterations (also the absolute little-endian position), `rs` is the
significant-digit count from the previous pass; the loop breaks as soon as
`carry == 0 && c >= rs`.  Returns the updated digit list and the final `c`. -/
def encStep (carry c rs : Nat) : List Nat → List Nat × Nat
  | [] => ([], c)
  | d :: ds =>
    if carry = 0 ∧ rs ≤ c then (d :: ds, c)
    else
      let t := carry + 256 * d
      let r := encStep (t / ALPHABET_SIZE) (c + 1) rs ds
      (t % ALPHABET_SIZE :: r.1, r.2)

/-- Translation of `encode` (src/base62.rs:71-93).  The byte-major loop is a
fold over the input bytes carrying the little-endian digit buffer together
with the running significant-digit count `rs` (initially 0); the buffer starts
as `cap` zero digits with `cap = encode_len src.len()`.  The final buffer is
reversed back to big-endian and mapped through `ALPHABET`. -/
def encode (src : List Nat) : List Char :=
  if src = [] then []
  else
    let cap := encode_len src.length
    let r := src.foldl (fun st b => encStep b 0 st.2 st.1) (List.replicate cap 0, 0)
    r.1.reverse.map (fun i => ALPHABET.getD i ' ')

/-! ## src/base62.rs : decode -/

/-- Translation of the `Error` enum of src/base62.rs. -/
inductive B62Error where
  | BadInput (reason : String) : B62Error
deriving DecidableEq, Repr

/-- Translation of the inner carry-propagation loop of `decode`
(src/base62.rs:121-129), the mirror image of `encStep` with the radices 62 and
256 exchanged. -/
def decStep (carry c rs : Nat) : List Nat → List Nat × Nat
  | [] => ([], c)
  | d :: ds =>
    if carry = 0 ∧ rs ≤ c then (d :: ds, c)
    else
      let t := carry + ALPHABET_SIZE * d
      let r := decStep (t / 256) (c + 1) rs ds
      (t % 256 :: r.1, r.2)

/-- Translation of the symbol-major loop of `decode` (src/base62.rs:113-131):
look each input byte up in `ALPHABET_VERT`, fail on the sentinel 255, otherwise
run one carry-propagation pass. -/
def decodeLoop : List Nat → List Nat → Nat → Except B62Error (List Nat)
  | [], rev, _ => .ok rev
  | b :: bs, rev, rs =>
    let carry := ALPHABET_VERT.getD b 255
    if carry = 255 then .error (.BadInput ("bad input " ++ toString b))
    else
      let r := decStep carry 0 rs rev
      decodeLoop bs r.1 r.2

/-- Translation of `decode` (src/base62.rs:101-133). -/
def decode (src : List Nat) : Except B62Error (List Nat) :=
  if src = [] then .ok []
  else if ¬ is_valid_encoding_length src.length then
    .error (.BadInput "invalid input length")
  else
    (decodeLoop src (List.replicate (decode_len src.length) 0) 0).map List.reverse

/-! ## src/backend.rs : backend variants, parameter sets, builders -/

/-- Translation of the `Backend` enum (src/backend.rs:15-24). -/
inductive Backend where
  | Transformers (command : List String) : Backend
  | VLlm (command : List String) : Backend
  | SGLang (command : List String) : Backend
  | TrtLlm (command : List String) : Backend
deriving DecidableEq, Repr

/-- Model of `serde_json::Value` restricted to the shapes that reach
`to_cli_args` in this repository: null, booleans, numbers and strings.
Integer numbers (ports, sizes, counts) are `int`; floating-point numbers
(`f32` parameters such as `gpu_memory_utilization` and
`mem_fraction_static`, stored as `f64` by serde_json) are `float`, carried
together with their serde_json decimal rendering — the shortest-decimal
(ryu) text such as `"0.9"`, produced by the float formatter outside the
embedding, like the SHA-256 digest; every finite rendering is unquoted text
ending in a digit.  Arrays and objects are never inserted by any builder. -/
inductive Value where
  | null : Value
  | bool (b : Bool) : Value
  | int (n : Int) : Value
  | float (repr : String) : Value
  | str (s : String) : Value
deriving DecidableEq, Repr

/-- Lowercase hexadecimal digit, used by the JSON control-character escape. -/
def jsonHexDigit (n : Nat) : Char :=
  if n < 10 then Char.ofNat (48 + n) else Char.ofNat (87 + n)

/-- Model of `serde_json`'s string-character escaping: quote and backslash get
a backslash escape, control characters get short escapes or a u-escape, and
everything else is passed through. -/
def escapeJsonChar (c : Char) : List Char :=
  if c = '"' then ['\\', '"']
  else if c = '\\' then ['\\', '\\']
  else if c = '\x08' then ['\\', 'b']
  else if c = '\x0c' then ['\\', 'f']
  else if c = '\n' then ['\\', 'n']
  else if c = '\r' then ['\\', 'r']
  else if c = '\t' then ['\\', 't']
  else if c.toNat < 32 then
    ['\\', 'u', '0', '0', jsonHexDigit (c.toNat / 16), jsonHexDigit (c.toNat % 16)]
  else [c]

/-- Model of `serde_json::to_string` on the modelled values. -/
def Value.jsonString : Value → String
  | .null => "null"
  | .bool true => "true"
  | .bool false => "false"
  | .int n => toString n
  | .float r => r
  | .str s => String.mk ('"' :: s.data.foldr (fun c acc => escapeJsonChar c ++ acc) ['"'])

/-- Translation of `BackendParameterSet` (src/backend.rs:131-135).  The Rust
`params: HashMap<String, Value>` has no specified iteration order; it is
modelled as the association list of its entries in whatever order the map
yields them, which is exactly what `to_cli_args` traverses. -/
structure BackendParameterSet where
  command : List String
  params : List (String × Value)
  env : List (String × String)
deriving DecidableEq, Repr

/-- Translation of `key.replace('_', "-")` used in `to_cli_args`: every
underscore character becomes a hyphen, other characters pass through. -/
def hyphenate (key : String) : String :=
  String.mk (key.data.map (fun c => if c = '_' then '-' else c))

/-- Translation of `str::replace("\\\"", "\"")` (leftmost, non-overlapping):
each backslash-quote pair becomes a quote. -/
def unescapeQuotes : List Char → List Char
  | [] => []
  | [c] => [c]
  | c1 :: c2 :: rest =>
    if c1 = '\\' ∧ c2 = '"' then '"' :: unescapeQuotes rest
    else c1 :: unescapeQuotes (c2 :: rest)

/-- Translation of the value postprocessing in `to_cli_args`
(src/backend.rs:181-186): if the JSON text is quoted
(`s.starts_with('"') && s.ends_with('"') && s.len() >= 2`, expressed on the
character list via `head?`/`getLast?`/`length`), strip the outer quotes and
unescape interior quotes (`s[1..len-1].replace("\\\"", "\"")`). -/
def stripJsonQuotes (s : String) : String :=
  if s.data.head? = some '"' ∧ s.data.getLast? = some '"' ∧ 2 ≤ s.data.length then
    String.mk (unescapeQuotes ((s.data.drop 1).dropLast))
  else s

/-- Translation of `BackendParameterSet::to_cli_args` (src/backend.rs:166-192).
The fold visits the parameter entries in the map's iteration order (the order
of the modelled association list); there is no sorting step in the source. -/
def BackendParameterSet.to_cli_args (p : BackendParameterSet) : List String :=
  p.params.foldl (fun out kv =>
    if kv.1 = "flexserv-token" ∨ kv.1 = "default-model" then out
    else
      match kv.2 with
      | .bool b => if b then out ++ ["--" ++ hyphenate kv.1] else out
      | .null => out
      | v => out ++ ["--" ++ hyphenate kv.1, stripJsonQuotes v.jsonString]) []

/-- Translation of `TransformersParameterSetBuilder` (src/backend.rs:196-205),
holding the accumulating parameter set. -/
structure TransformersParameterSetBuilder where
  params : BackendParameterSet
deriving DecidableEq, Repr

/-- Translation of `TransformersParameterSetBuilder::new`. -/
def TransformersParameterSetBuilder.new (command : List String) :
    TransformersParameterSetBuilder :=
  ⟨{ command := command, params := [], env := [] }⟩

/-- Translation of `VLlmParameterSetBuilder` (src/backend.rs:300-309). -/
structure VLlmParameterSetBuilder where
  params : BackendParameterSet
deriving DecidableEq, Repr

/-- Translation of `VLlmParameterSetBuilder::new`. -/
def VLlmParameterSetBuilder.new (command : List String) : VLlmParameterSetBuilder :=
  ⟨{ command := command, params := [], env := [] }⟩

/-- Translation of `SGLangParameterSetBuilder` (src/backend.rs:337-346). -/
structure SGLangParameterSetBuilder where
  params : BackendParameterSet
deriving DecidableEq, Repr

/-- Translation of `SGLangParameterSetBuilder::new`. -/
def SGLangParameterSetBuilder.new (command : List String) : SGLangParameterSetBuilder :=
  ⟨{ command := command, params := [], env := [] }⟩

/-- Translation of `TrtLlmParameterSetBuilder` (src/backend.rs:364-373). -/
structure TrtLlmParameterSetBuilder where
  params : BackendParameterSet
deriving DecidableEq, Repr

/-- Translation of `TrtLlmParameterSetBuilder::new`. -/
def TrtLlmParameterSetBuilder.new (command : List String) : TrtLlmParameterSetBuilder :=
  ⟨{ command := command, params := [], env := [] }⟩

/-- Translation of `Backend::transformers` (src/backend.rs:61-68).  The
`panic!("Backend is not Transformers")` arm is modelled as `none`; on the
matching variant the builder is seeded with a copy of the command sequence. -/
def Backend.transformers : Backend → Option TransformersParameterSetBuilder
  | .Transformers command => some (TransformersParameterSetBuilder.new command)
  | _ => none

/-- Translation of `Backend::vllm` (src/backend.rs:71-76); the panic arm is
modelled as `none`. -/
def Backend.vllm : Backend → Option VLlmParameterSetBuilder
  | .VLlm command => some (VLlmParameterSetBuilder.new command)
  | _ => none

/-- Translation of `Backend::sglang` (src/backend.rs:79-84); the panic arm is
modelled as `none`. -/
def Backend.sglang : Backend → Option SGLangParameterSetBuilder
  | .SGLang command => some (SGLangParameterSetBuilder.new command)
  | _ => none

/-- Translation of `Backend::trtllm` (src/backend.rs:87-92); the panic arm is
modelled as `none`. -/
def Backend.trtllm : Backend → Option TrtLlmParameterSetBuilder
  | .TrtLlm command => some (TrtLlmParameterSetBuilder.new command)
  | _ => none

/-! ## src/server.rs : deployment descriptor and hash -/

/-- Translation of `FlexServInstance` (src/server.rs:59-80). -/
structure FlexServInstance where
  tenant_url : String
  tapis_user : String
  default_model : String
  model_revision : Option String
  hf_token : Option String
  default_embedding_model : Option String
  backend : Backend
deriving DecidableEq, Repr

/-- Model of the derived `Debug` rendering of a `Vec<String>` payload
(`["a", "b"]`). -/
def debugStringList (xs : List String) : String :=
  "[" ++ String.intercalate ", " (xs.map (fun s => "\"" ++ s ++ "\"")) ++ "]"

/-- Model of the derived `Debug` rendering `{:?}` of a `Backend` value, used
inside `deployment_hash`'s canonical string.  The claims depend only on this
being a function of the variant and its command sequence. -/
def backendDebug : Backend → String
  | .Transformers c => "Transformers \x7b command: " ++ debugStringList c ++ " \x7d"
  | .VLlm c => "VLlm \x7b command: " ++ debugStringList c ++ " \x7d"
  | .SGLang c => "SGLang \x7b command: " ++ debugStringList c ++ " \x7d"
  | .TrtLlm c => "TrtLlm \x7b command: " ++ debugStringList c ++ " \x7d"

/-- Translation of the `format!("{}@{}-{}-{:?}", tapis_user, tenant_url,
default_model, backend)` canonical string of `deployment_hash`
(src/server.rs:219-222). -/
def configString (inst : FlexServInstance) : String :=
  inst.tapis_user ++ "@" ++ inst.tenant_url ++ "-" ++ inst.default_model ++ "-" ++
    backendDebug inst.backend

/-- Translation of `FlexServInstance::deployment_hash` (src/server.rs:217-228).
The external `sha2::Sha256::digest` is supplied as the parameter `digest`
(32 output bytes for the real digest); the digest bytes are base-62 encoded
and the first 12 symbols are kept. -/
def deployment_hash (digest : String → List Nat) (inst : FlexServInstance) : String :=
  String.mk ((encode (digest (configString inst))).take 12)

/-! ## src/deployment/pod.rs : pod/volume identifier derivation -/

/-- Translation of `PodDeploymentOptions` (src/deployment/pod.rs:13-32). -/
structure PodDeploymentOptions where
  deployment_id : Option String
  volume_size_mb : Option Int
  image : Option String
  cpu_request : Option Int
  cpu_limit : Option Int
  mem_request_mb : Option Int
  mem_limit_mb : Option Int
  gpus : Option Int
  flexserv_secret : Option String
deriving DecidableEq, Repr

/-- Translation of `FlexServPodDeployment::ids_from_options`
(src/deployment/pod.rs:79-95).  `char::is_ascii_alphanumeric` is
`Char.isAlphanum` (both are the ASCII ranges 0-9/A-Z/a-z), and
`flat_map(char::to_lowercase)` on an ASCII character yields exactly its ASCII
lowercase, i.e. `Char.toLower`.  Returns `(pod_id, volume_id)`. -/
def ids_from_options (digest : String → List Nat) (server : FlexServInstance)
    (options : PodDeploymentOptions) : String × String :=
  let suffix :=
    match options.deployment_id with
    | some id =>
      let normalized := String.mk ((id.data.filter (fun c => c.isAlphanum)).map Char.toLower)
      if normalized = "" then (deployment_hash digest server).toLower
      else normalized
    | none => (deployment_hash digest server).toLower
  ("p" ++ suffix, "v" ++ suffix)

/-! ## Specification-side comparison definitions -/

/-- Plain-formula output length from the specification's words: the least `m`
with `62 ^ m ≥ 256 ^ n`, which is exactly `⌈8·n / log₂ 62⌉` (with the real
logarithm).  Used to compare the blockwise `encode_len` against the formula it
claims to optimize. -/
def encodeLenSpec (n : Nat) : Nat :=
  Nat.find (p := fun m => 256 ^ n ≤ 62 ^ m)
    ⟨2 * n, by
      calc 256 ^ n ≤ (62 ^ 2) ^ n := Nat.pow_le_pow_left (by norm_num) n
      _ = 62 ^ (2 * n) := by rw [← pow_mul, mul_comm]⟩

/-- Per-entry token emission of `to_cli_args`, as the specification describes
it key by key; used to decompose the fold. -/
def cliTokensForEntry (kv : String × Value) : List String :=
  if kv.1 = "flexserv-token" ∨ kv.1 = "default-model" then []
  else
    match kv.2 with
    | .bool true => ["--" ++ hyphenate kv.1]
    | .bool false => []
    | .null => []
    | v => ["--" ++ hyphenate kv.1, stripJsonQuotes v.jsonString]

/-- Character class of the suffix part of derived resource identifiers:
lowercase ASCII alphanumeric, the class `[a-z0-9]`. -/
def isLowerAlnum (c : Char) : Bool :=
  ('0' ≤ c && c ≤ '9') || ('a' ≤ c && c ≤ 'z')

/-- Value of a little-endian list of base-62 digits; the reversed `dst` buffer
of `encode` is such a list. -/
def val62 : List Nat → Nat
  | [] => 0
  | d :: ds => d + 62 * val62 ds

/-- Big-endian value of a byte sequence, starting from accumulator `a`; this is
the arbitrary-precision integer `encode` converts to base 62. -/
def valBytes (a : Nat) (src : List Nat) : Nat :=
  src.foldl (fun acc b => 256 * acc + b) a

end FlexServ


namespace FlexServ

/-! ## Helper lemmas: little-endian digit values -/

theorem val62_eq_zero (ds : List Nat) (h : ∀ i, ds.getD i 0 = 0) : val62 ds = 0 := by
  induction ds with
  | nil => rfl
  | cons d ds ih =>
    have hd : d = 0 := h 0
    have ht : val62 ds = 0 := ih (fun i => h (i + 1))
    simp [val62, hd, ht]

theorem val62_lt (ds : List Nat) (hd : ∀ d ∈ ds, d < 62) :
    val62 ds < 62 ^ ds.length := by
  induction ds with
  | nil => simp [val62]
  | cons d ds ih =>
    have h1 : d < 62 := hd d (by simp)
    have h2 : val62 ds < 62 ^ ds.length := ih (fun x hx => hd x (by simp [hx]))
    have : d + 62 * val62 ds < 62 * 62 ^ ds.length := by omega
    simpa [val62, List.length_cons, pow_succ, mul_comm] using this

theorem getD_replicate_zero (n i : Nat) : (List.replicate n (0 : Nat)).getD i 0 = 0 := by
  induction n generalizing i with
  | zero => simp
  | succ n ih =>
    cases i with
    | zero => simp [List.replicate]
    | succ i => simp [List.replicate, ih i]

theorem getD_eq_zero_of_val62_lt (ds : List Nat) (hd : ∀ d ∈ ds, d < 62) :
    ∀ m, val62 ds < 62 ^ m → ∀ i, m ≤ i → ds.getD i 0 = 0 := by
  induction ds with
  | nil => intro m _ i _; simp
  | cons d ds ih =>
    intro m hv i hi
    have hdd : d < 62 := hd d (by simp)
    cases i with
    | zero =>
      have hm : m = 0 := Nat.le_zero.mp hi
      subst hm
      have : d = 0 := by simp [val62] at hv; omega
      simpa using this
    | succ i =>
      have htail : ∀ x ∈ ds, x < 62 := fun x hx => hd x (by simp [hx])
      cases m with
      | zero =>
        have h0 : val62 (d :: ds) = 0 := by
          have := Nat.lt_one_iff.mp (by simpa using hv)
          exact this
        have : val62 ds = 0 := by simp [val62] at h0; omega
        have : val62 ds < 62 ^ 0 := by simp [this]
        simpa using ih htail 0 this i (Nat.zero_le i)
      | succ m =>
        have hv' : val62 ds < 62 ^ m := by
          have : 62 * val62 ds < 62 * 62 ^ m := by
            have := hv
            simp [val62, pow_succ, mul_comm] at this ⊢
            omega
          omega
        simpa using ih htail m hv' i (Nat.succ_le_succ_iff.mp hi)

theorem valBytes_mod_congr (src : List Nat) :
    ∀ x y M : Nat, x % M = y % M → valBytes x src % M = valBytes y src % M := by
  induction src with
  | nil => intro x y M h; simpa [valBytes] using h
  | cons b src ih =>
    intro x y M h
    have step : (256 * x + b) % M = (256 * y + b) % M := by
      conv_lhs => rw [Nat.add_mod, Nat.mul_mod, h, ← Nat.mul_mod, ← Nat.add_mod]
    simpa [valBytes] using ih (256 * x + b) (256 * y + b) M step

theorem valBytes_lt (src : List Nat) (hb : ∀ b ∈ src, b < 256) :
    ∀ a, valBytes a src < (a + 1) * 256 ^ src.length := by
  induction src with
  | nil => intro a; simp [valBytes]
  | cons b src ih =>
    intro a
    have hb1 : b < 256 := hb b (by simp)
    have htail := ih (fun x hx => hb x (by simp [hx])) (256 * a + b)
    have hle : (256 * a + b + 1) * 256 ^ src.length ≤ ((a + 1) * 256) * 256 ^ src.length :=
      Nat.mul_le_mul_right _ (by omega)
    calc valBytes a (b :: src) = valBytes (256 * a + b) src := by simp [valBytes]
    _ < (256 * a + b + 1) * 256 ^ src.length := htail
    _ ≤ ((a + 1) * 256) * 256 ^ src.length := hle
    _ = (a + 1) * 256 ^ (src.length + 1) := by ring
    _ = (a + 1) * 256 ^ (b :: src).length := by simp

theorem valBytes_zero_of_all_zero (src : List Nat) (h : ∀ b ∈ src, b = 0) :
    valBytes 0 src = 0 := by
  induction src with
  | nil => rfl
  | cons b src ih =>
    have hb : b = 0 := h b (by simp)
    have := ih (fun x hx => h x (by simp [hx]))
    simpa [valBytes, hb] using this

end FlexServ

namespace FlexServ

/-! ## Helper lemmas: the encode carry-propagation pass -/

theorem encStep_length (ds : List Nat) :
    ∀ carry c rs, ((encStep carry c rs ds).1).length = ds.length := by
  induction ds with
  | nil => intro carry c rs; rfl
  | cons d ds ih =>
    intro carry c rs
    by_cases h : carry = 0 ∧ rs ≤ c
    · simp [encStep, h]
    · simp [encStep, h, ih]

theorem encStep_snd_ge (ds : List Nat) :
    ∀ carry c rs, c ≤ (encStep carry c rs ds).2 := by
  induction ds with
  | nil => intro carry c rs; simp [encStep]
  | cons d ds ih =>
    intro carry c rs
    by_cases h : carry = 0 ∧ rs ≤ c
    · simp [encStep, h]
    · have := ih ((carry + 256 * d) / ALPHABET_SIZE) (c + 1) rs
      simp only [encStep, h, if_false]
      omega

theorem encStep_digit_lt (ds : List Nat) :
    ∀ carry c rs, (∀ d ∈ ds, d < 62) →
      ∀ d ∈ (encStep carry c rs ds).1, d < 62 := by
  induction ds with
  | nil => intro carry c rs _ d hd; simp [encStep] at hd
  | cons d ds ih =>
    intro carry c rs hall x hx
    by_cases h : carry = 0 ∧ rs ≤ c
    · simp [encStep, h] at hx
      rcases hx with h1 | h1
      · exact hall x (by simp [h1])
      · exact hall x (by simp [h1])
    · simp only [encStep, h, if_false, List.mem_cons] at hx
      rcases hx with h1 | h1
      · have : (carry + 256 * d) % ALPHABET_SIZE < 62 :=
          Nat.mod_lt _ (by simp [ALPHABET_SIZE])
        simpa [h1] using this
      · exact ih _ _ _ (fun y hy => hall y (by simp [hy])) x h1

theorem add_mul_mod_mul (a X M : Nat) (ha : a < 62) :
    (a + 62 * X) % (62 * M) = a + 62 * (X % M) := by
  cases M with
  | zero => simp
  | succ m =>
    have hdm : 62 * ((m + 1) * (X / (m + 1))) + 62 * (X % (m + 1)) = 62 * X := by
      have := Nat.div_add_mod X (m + 1)
      omega
    have key : a + 62 * X = (a + 62 * (X % (m + 1))) + (X / (m + 1)) * (62 * (m + 1)) := by
      have := Nat.div_add_mod X (m + 1)
      ring_nf
      ring_nf at hdm
      omega
    rw [key, Nat.add_mul_mod_self_right]
    have hlt : a + 62 * (X % (m + 1)) < 62 * (m + 1) := by
      have : X % (m + 1) < m + 1 := Nat.mod_lt _ (by omega)
      omega
    exact Nat.mod_eq_of_lt hlt

theorem encStep_val (ds : List Nat) :
    ∀ carry c rs, (∀ i, rs ≤ c + i → ds.getD i 0 = 0) →
      val62 (encStep carry c rs ds).1 = (carry + 256 * val62 ds) % 62 ^ ds.length := by
  induction ds with
  | nil => intro carry c rs _; simp [encStep, val62, Nat.mod_one]
  | cons d ds ih =>
    intro carry c rs h0
    by_cases h : carry = 0 ∧ rs ≤ c
    · have hz : ∀ i, (d :: ds).getD i 0 = 0 := fun i => h0 i (by omega)
      have hv : val62 (d :: ds) = 0 := val62_eq_zero _ hz
      simp [encStep, h, hv, h.1]
    · simp only [encStep, h, if_false, ALPHABET_SIZE]
      have h0' : ∀ i, rs ≤ (c + 1) + i → ds.getD i 0 = 0 := by
        intro i hi
        have := h0 (i + 1) (by omega)
        simpa using this
      rw [val62, ih ((carry + 256 * d) / 62) (c + 1) rs h0', List.length_cons, pow_succ,
        mul_comm (62 ^ ds.length) 62,
        ← add_mul_mod_mul ((carry + 256 * d) % 62) _ _ (Nat.mod_lt _ (by omega))]
      congr 1
      simp only [val62]
      omega

theorem encStep_high_zero (ds : List Nat) :
    ∀ carry c rs, (∀ i, rs ≤ c + i → ds.getD i 0 = 0) →
      ∀ i, (encStep carry c rs ds).2 ≤ c + i → ((encStep carry c rs ds).1).getD i 0 = 0 := by
  induction ds with
  | nil => intro carry c rs _ i _; simp [encStep]
  | cons d ds ih =>
    intro carry c rs h0 i hi
    by_cases h : carry = 0 ∧ rs ≤ c
    · simp only [encStep, h, if_true] at hi ⊢
      exact h0 i (by omega)
    · simp only [encStep, h, if_false] at hi ⊢
      have h0' : ∀ j, rs ≤ (c + 1) + j → ds.getD j 0 = 0 := by
        intro j hj
        have := h0 (j + 1) (by omega)
        simpa using this
      cases i with
      | zero =>
        have := encStep_snd_ge ds ((carry + 256 * d) / ALPHABET_SIZE) (c + 1) rs
        omega
      | succ i =>
        have := ih ((carry + 256 * d) / ALPHABET_SIZE) (c + 1) rs h0' i (by omega)
        simpa using this

end FlexServ

namespace FlexServ

/-! ## Helper lemmas: the encode byte-major fold -/

theorem encodeFold_spec (src : List Nat) :
    ∀ st : List Nat × Nat,
      (∀ i, st.2 ≤ i → st.1.getD i 0 = 0) →
      (∀ d ∈ st.1, d < 62) →
      (src.foldl (fun st b => encStep b 0 st.2 st.1) st).1.length = st.1.length ∧
      (∀ i, (src.foldl (fun st b => encStep b 0 st.2 st.1) st).2 ≤ i →
        (src.foldl (fun st b => encStep b 0 st.2 st.1) st).1.getD i 0 = 0) ∧
      (∀ d ∈ (src.foldl (fun st b => encStep b 0 st.2 st.1) st).1, d < 62) ∧
      val62 (src.foldl (fun st b => encStep b 0 st.2 st.1) st).1 =
        valBytes (val62 st.1) src % 62 ^ st.1.length := by
  induction src with
  | nil =>
    intro st h0 hlt
    refine ⟨rfl, h0, hlt, ?_⟩
    have := val62_lt st.1 hlt
    simp [valBytes, Nat.mod_eq_of_lt this]
  | cons b src ih =>
    intro st h0 hlt
    have h0' : ∀ i, (encStep b 0 st.2 st.1).2 ≤ i → (encStep b 0 st.2 st.1).1.getD i 0 = 0 := by
      intro i hi
      have := encStep_high_zero st.1 b 0 st.2 (by simpa using h0) i (by simpa using hi)
      exact this
    have hlt' : ∀ d ∈ (encStep b 0 st.2 st.1).1, d < 62 := encStep_digit_lt st.1 b 0 st.2 hlt
    have hlen' : (encStep b 0 st.2 st.1).1.length = st.1.length := encStep_length st.1 b 0 st.2
    have hval' : val62 (encStep b 0 st.2 st.1).1 = (b + 256 * val62 st.1) % 62 ^ st.1.length :=
      encStep_val st.1 b 0 st.2 (by simpa using h0)
    obtain ⟨ihl, ihz, ihd, ihv⟩ := ih (encStep b 0 st.2 st.1) h0' hlt'
    refine ⟨?_, ?_, ?_, ?_⟩
    · simpa [hlen'] using ihl
    · simpa using ihz
    · simpa using ihd
    · have hcongr : valBytes (val62 (encStep b 0 st.2 st.1).1) src % 62 ^ st.1.length =
          valBytes (b + 256 * val62 st.1) src % 62 ^ st.1.length := by
        apply valBytes_mod_congr
        rw [hval', Nat.mod_mod]
      have hstep : valBytes (val62 st.1) (b :: src) = valBytes (b + 256 * val62 st.1) src := by
        simp [valBytes, Nat.add_comm, Nat.mul_comm]
      calc val62 ((b :: src).foldl (fun st b => encStep b 0 st.2 st.1) st).1
          = val62 (src.foldl (fun st b => encStep b 0 st.2 st.1) (encStep b 0 st.2 st.1)).1 := by
            simp
      _ = valBytes (val62 (encStep b 0 st.2 st.1).1) src % 62 ^ (encStep b 0 st.2 st.1).1.length := ihv
      _ = valBytes (val62 (encStep b 0 st.2 st.1).1) src % 62 ^ st.1.length := by rw [hlen']
      _ = valBytes (b + 256 * val62 st.1) src % 62 ^ st.1.length := hcongr
      _ = valBytes (val62 st.1) (b :: src) % 62 ^ st.1.length := by rw [hstep]

end FlexServ

namespace FlexServ

/-! ## Helper lemmas: encode_len bounds -/

theorem encTail_bound : ∀ r, r < 32 → 0 < r →
    256 ^ r ≤ 62 ^ ((r * 8 * B62L_DEN + (B62L_NUM - 1)) / B62L_NUM) := by decide

theorem encTail_ge : ∀ r, r < 32 → r ≤ (r * 8 * B62L_DEN + (B62L_NUM - 1)) / B62L_NUM := by
  decide

theorem pow256_32_le : (256 : Nat) ^ 32 ≤ 62 ^ 43 := by decide

theorem encode_len_eq_of_ne (n : Nat) (h : n ≠ 32) :
    encode_len n = n / 32 * 43 +
      (if n % 32 > 0 then (n % 32 * 8 * B62L_DEN + (B62L_NUM - 1)) / B62L_NUM else 0) := by
  by_cases hr : n % 32 > 0
  · simp only [encode_len, BASE256BLOCK_LEN, BASE62BLOCK_LEN, h, if_false, hr, if_true]
  · simp only [encode_len, BASE256BLOCK_LEN, BASE62BLOCK_LEN, h, if_false, hr, Nat.add_zero]

theorem pow256_le_pow62_encode_len (n : Nat) : 256 ^ n ≤ 62 ^ encode_len n := by
  by_cases h32 : n = 32
  · subst h32
    have : encode_len 32 = 43 := by simp [encode_len, BASE256BLOCK_LEN, BASE62BLOCK_LEN]
    rw [this]
    exact pow256_32_le
  · rw [encode_len_eq_of_ne n h32]
    have hqr : 32 * (n / 32) + n % 32 = n := Nat.div_add_mod n 32
    have hq : (256 : Nat) ^ (32 * (n / 32)) ≤ 62 ^ (n / 32 * 43) := by
      rw [pow_mul, mul_comm (n / 32) 43, pow_mul]
      exact Nat.pow_le_pow_left pow256_32_le (n / 32)
    by_cases hr : n % 32 > 0
    · have hrem := encTail_bound (n % 32) (Nat.mod_lt n (by omega)) hr
      rw [if_pos hr, pow_add]
      calc (256 : Nat) ^ n = 256 ^ (32 * (n / 32)) * 256 ^ (n % 32) := by
            rw [← pow_add, hqr]
      _ ≤ 62 ^ (n / 32 * 43) * 62 ^ ((n % 32 * 8 * B62L_DEN + (B62L_NUM - 1)) / B62L_NUM) :=
            Nat.mul_le_mul hq hrem
    · rw [if_neg hr, Nat.add_zero]
      have hr0 : n % 32 = 0 := by omega
      calc (256 : Nat) ^ n = 256 ^ (32 * (n / 32)) := by
            conv_lhs => rw [← hqr, hr0, Nat.add_zero]
      _ ≤ 62 ^ (n / 32 * 43) := hq

theorem encode_len_ge (n : Nat) : n ≤ encode_len n := by
  by_cases h32 : n = 32
  · subst h32; simp [encode_len, BASE256BLOCK_LEN, BASE62BLOCK_LEN]
  · rw [encode_len_eq_of_ne n h32]
    have hqr : 32 * (n / 32) + n % 32 = n := Nat.div_add_mod n 32
    by_cases hr : n % 32 > 0
    · have := encTail_ge (n % 32) (Nat.mod_lt n (by omega))
      rw [if_pos hr]
      omega
    · rw [if_neg hr]
      omega

end FlexServ

namespace FlexServ

/-! ## Helper lemmas: encode at the top level -/

theorem replicate_state_facts (cap : Nat) :
    (∀ i, (0 : Nat) ≤ i → (List.replicate cap (0 : Nat)).getD i 0 = 0) ∧
    (∀ d ∈ List.replicate cap (0 : Nat), d < 62) := by
  constructor
  · intro i _; exact getD_replicate_zero cap i
  · intro d hd
    have : d = 0 := List.eq_of_mem_replicate hd
    omega

theorem encode_length (src : List Nat) (h : src ≠ []) :
    (encode src).length = encode_len src.length := by
  obtain ⟨h0, hlt⟩ := replicate_state_facts (encode_len src.length)
  obtain ⟨hl, -, -, -⟩ :=
    encodeFold_spec src (List.replicate (encode_len src.length) 0, 0) h0 hlt
  simp only [encode, h, if_false]
  simpa using hl

theorem encode_mem_alphabet (src : List Nat) :
    ∀ c ∈ encode src, c ∈ ALPHABET := by
  intro c hc
  by_cases h : src = []
  · simp [encode, h] at hc
  · obtain ⟨h0, hlt⟩ := replicate_state_facts (encode_len src.length)
    obtain ⟨-, -, hd, -⟩ :=
      encodeFold_spec src (List.replicate (encode_len src.length) 0, 0) h0 hlt
    simp only [encode, h, if_false, List.mem_map, List.mem_reverse] at hc
    obtain ⟨d, hdm, rfl⟩ := hc
    have hd62 : d < 62 := hd d hdm
    have hlen : d < ALPHABET.length := by
      have : ALPHABET.length = 62 := by rfl
      omega
    rw [List.getD_eq_getElem ALPHABET ' ' hlen]
    exact List.getElem_mem hlen

theorem encode_take_zeros (src : List Nat) (k : Nat) (hk : k ≤ src.length)
    (hb : ∀ b ∈ src, b < 256) (hz : ∀ b ∈ src.take k, b = 0) :
    (encode src).take k = List.replicate k '0' := by
  by_cases h : src = []
  · subst h
    have : k = 0 := by simpa using hk
    simp [this]
  · obtain ⟨h0, hlt⟩ := replicate_state_facts (encode_len src.length)
    obtain ⟨hl, -, hd, hv⟩ :=
      encodeFold_spec src (List.replicate (encode_len src.length) 0, 0) h0 hlt
    set cap := encode_len src.length with hcap
    set rev := (src.foldl (fun st b => encStep b 0 st.2 st.1)
      (List.replicate cap 0, 0)).1 with hrev
    have hlen : rev.length = cap := by simpa using hl
    have hkcap : k ≤ cap := le_trans hk (encode_len_ge src.length)
    -- the number encoded is the value of the bytes after the leading zeros
    have hdropval : valBytes 0 src = valBytes 0 (src.drop k) := by
      conv_lhs => rw [← List.take_append_drop k src]
      rw [valBytes, List.foldl_append, ← valBytes, ← valBytes,
        valBytes_zero_of_all_zero (src.take k) hz]
    have hvb : valBytes 0 src < 256 ^ (src.length - k) := by
      rw [hdropval]
      have hbd : ∀ b ∈ src.drop k, b < 256 := fun b hbm => hb b (List.drop_subset k src hbm)
      have := valBytes_lt (src.drop k) hbd 0
      simpa [List.length_drop] using this
    have hpow : 256 ^ (src.length - k) ≤ 62 ^ (cap - k) := by
      have hmaster : 256 ^ src.length ≤ 62 ^ cap := pow256_le_pow62_encode_len src.length
      have h62 : (62 : Nat) ^ k ≤ 256 ^ k := Nat.pow_le_pow_left (by norm_num) k
      have hmul : 256 ^ (src.length - k) * 62 ^ k ≤ 62 ^ (cap - k) * 62 ^ k := by
        calc 256 ^ (src.length - k) * 62 ^ k ≤ 256 ^ (src.length - k) * 256 ^ k :=
              Nat.mul_le_mul_left _ h62
        _ = 256 ^ src.length := by rw [← pow_add]; congr 1; omega
        _ ≤ 62 ^ cap := hmaster
        _ = 62 ^ (cap - k) * 62 ^ k := by rw [← pow_add]; congr 1; omega
      exact Nat.le_of_mul_le_mul_right hmul (Nat.pos_pow_of_pos k (by norm_num))
    have hvallt : val62 rev < 62 ^ (cap - k) := by
      have hrep0 : val62 (List.replicate cap (0 : Nat)) = 0 :=
        val62_eq_zero _ (getD_replicate_zero cap)
      have hmod : val62 rev = valBytes 0 src % 62 ^ cap := by
        simpa [hrep0] using hv
      calc val62 rev ≤ valBytes 0 src := hmod ▸ Nat.mod_le _ _
      _ < 256 ^ (src.length - k) := hvb
      _ ≤ 62 ^ (cap - k) := hpow
    have hhigh : ∀ i, cap - k ≤ i → rev.getD i 0 = 0 :=
      getD_eq_zero_of_val62_lt rev hd (cap - k) hvallt
    -- now transfer to the reversed, alphabet-mapped output
    have hencode : encode src = rev.reverse.map (fun i => ALPHABET.getD i ' ') := by
      simp only [encode, h, if_false]
    have hlenc : (encode src).length = cap := encode_length src h
    apply List.ext_getElem
    · rw [List.length_take, List.length_replicate, hlenc]
      exact Nat.min_eq_left hkcap
    · intro i h1 h2
      have hik : i < k := by simpa using h2
      have hicap : i < cap := lt_of_lt_of_le hik hkcap
      rw [List.getElem_take, List.getElem_replicate]
      simp only [hencode, List.getElem_map, List.getElem_reverse]
      have hlt1 : rev.length - 1 - i < rev.length := by omega
      have hz0 : rev.getD (rev.length - 1 - i) 0 = 0 := hhigh _ (by omega)
      rw [List.getD_eq_getElem rev 0 hlt1] at hz0
      rw [hz0]
      rfl

theorem encode_all_zero (n : Nat) :
    encode (List.replicate n 0) = List.replicate (encode_len n) '0' := by
  by_cases h : n = 0
  · subst h
    have : encode_len 0 = 0 := by decide
    simp [encode, this]
  · have hne : List.replicate n (0 : Nat) ≠ [] := by
      simp [List.replicate_eq_nil_iff]
      omega
    have hstep : ∀ ds : List Nat, encStep 0 0 0 ds = (ds, 0) := by
      intro ds
      cases ds with
      | nil => rfl
      | cons d ds => simp [encStep]
    have hfold : ∀ (bytes : List Nat) (buf : List Nat), (∀ b ∈ bytes, b = 0) →
        bytes.foldl (fun st b => encStep b 0 st.2 st.1) (buf, 0) = (buf, 0) := by
      intro bytes
      induction bytes with
      | nil => intro buf _; rfl
      | cons b bytes ih =>
        intro buf hz
        have hb : b = 0 := hz b (by simp)
        have : encStep b 0 0 buf = (buf, 0) := by rw [hb]; exact hstep buf
        simp only [List.foldl_cons, this]
        exact ih buf (fun x hx => hz x (by simp [hx]))
    have hz : ∀ b ∈ List.replicate n (0 : Nat), b = 0 := fun b hb =>
      List.eq_of_mem_replicate hb
    simp only [encode, hne, if_false, List.length_replicate]
    rw [hfold (List.replicate n 0) (List.replicate (encode_len n) 0) hz]
    rw [List.reverse_replicate, List.map_replicate]
    rfl

end FlexServ

namespace FlexServ

/-! ## Helper lemmas: decode -/

theorem decodeLoop_error_iff (bs : List Nat) :
    ∀ rev rs, (∃ e, decodeLoop bs rev rs = .error e) ↔
      ∃ b ∈ bs, ALPHABET_VERT.getD b 255 = 255 := by
  induction bs with
  | nil =>
    intro rev rs
    constructor
    · rintro ⟨e, he⟩; simp [decodeLoop] at he
    · rintro ⟨b, hb, -⟩; simp at hb
  | cons b bs ih =>
    intro rev rs
    by_cases hb : ALPHABET_VERT.getD b 255 = 255
    · constructor
      · intro _; exact ⟨b, by simp, hb⟩
      · intro _
        refine ⟨.BadInput ("bad input " ++ toString b), ?_⟩
        simp only [decodeLoop]
        rw [if_pos hb]
    · constructor
      · rintro ⟨e, he⟩
        simp only [decodeLoop, hb, if_false] at he
        obtain ⟨x, hx, hxv⟩ := (ih _ _).mp ⟨e, he⟩
        exact ⟨x, by simp [hx], hxv⟩
      · rintro ⟨x, hx, hxv⟩
        rcases List.mem_cons.mp hx with rfl | hx'
        · exact absurd hxv hb
        · obtain ⟨e, he⟩ := (ih ((decStep (ALPHABET_VERT.getD b 255) 0 rs rev).1)
            ((decStep (ALPHABET_VERT.getD b 255) 0 rs rev).2)).mpr ⟨x, hx', hxv⟩
          refine ⟨e, ?_⟩
          simp only [decodeLoop, hb, if_false]
          exact he

theorem except_map_error_iff {α β γ : Type} (f : α → β) (x : Except γ α) :
    (∃ e, x.map f = .error e) ↔ (∃ e, x = .error e) := by
  cases x <;> simp [Except.map]

set_option maxRecDepth 4000 in
set_option exponentiation.threshold 320 in
/-- Exactness of the blockwise length below the first divergence, checked by
computation: the blockwise result is a large-enough exponent and one less is
not. -/
theorem encode_len_exact_below_227 : ∀ n, n ≤ 226 →
    256 ^ n ≤ 62 ^ encode_len n ∧ (encode_len n = 0 ∨ 62 ^ (encode_len n - 1) < 256 ^ n) := by
  decide

end FlexServ

namespace FlexServ

/-! ## Claim theorems -/

set_option maxRecDepth 10000 in
/-- C1 (code bug): the round-trip law `decode(encode(b)) = Ok(b)` fails on the
code for inputs of 227 bytes.  `encode` emits `encode_len 227 = 306` symbols
(here 306 `'0'`s for the all-zero input), but 306 is rejected by
`is_valid_encoding_length`, so `decode` returns `Err(BadInput)` instead of
`Ok(b)`. -/
theorem c1_roundtrip_fails_at_227 :
    encode (List.replicate 227 0) = List.replicate 306 '0' ∧
    is_valid_encoding_length 306 = false ∧
    decode ((encode (List.replicate 227 0)).map Char.toNat) =
      .error (.BadInput "invalid input length") :=
  ⟨by decide, by decide, rfl⟩

/-- C2: `decode` returns `Err(BadInput)` exactly when the input is non-empty
and either its length is not a producible encoding length (the floor test of
`is_valid_encoding_length`) or some input byte is outside the 62-symbol
alphabet (reverse-lookup sentinel 255); every other input yields `Ok`. -/
theorem c2_decode_error_iff (src : List Nat) :
    (∃ e, decode src = .error e) ↔
      src ≠ [] ∧ (is_valid_encoding_length src.length = false ∨
        ∃ b ∈ src, ALPHABET_VERT.getD b 255 = 255) := by
  by_cases h : src = []
  · subst h
    simp [decode]
  · by_cases hv : is_valid_encoding_length src.length
    · have hd : decode src =
          (decodeLoop src (List.replicate (decode_len src.length) 0) 0).map List.reverse := by
        simp [decode, h, hv]
      rw [hd, except_map_error_iff, decodeLoop_error_iff]
      constructor
      · intro hx
        exact ⟨h, Or.inr hx⟩
      · rintro ⟨-, hx | hx⟩
        · rw [hv] at hx; cases hx
        · exact hx
    · have hd : decode src = .error (.BadInput "invalid input length") := by
        simp [decode, h, hv]
      rw [hd]
      constructor
      · intro _
        refine ⟨h, Or.inl ?_⟩
        simpa using hv
      · intro _
        exact ⟨_, rfl⟩

set_option maxRecDepth 4000 in
set_option exponentiation.threshold 320 in
/-- C6 counterexample: at input length `n = 227` the blockwise `encode_len`
returns 306 symbols while the plain formula `⌈8·n / log₂ 62⌉` (the least `m`
with `62^m ≥ 256^n`) gives 305, so the block math is not equal to the plain
formula for every `n`. -/
theorem c6_blockwise_ne_plain_at_227 :
    encode_len 227 = 306 ∧ encodeLenSpec 227 = 305 ∧ encodeLenSpec 227 ≠ encode_len 227 := by
  have h1 : encode_len 227 = 306 := by decide
  have h2 : encodeLenSpec 227 = 305 := by
    unfold encodeLenSpec
    refine (Nat.find_eq_iff _).mpr ⟨?_, ?_⟩
    · decide
    · intro k hk
      have hmono : (62 : Nat) ^ k ≤ 62 ^ 304 :=
        Nat.pow_le_pow_right (by norm_num) (by omega)
      have hlt : (62 : Nat) ^ 304 < 256 ^ 227 := by decide
      omega
  exact ⟨h1, h2, by omega⟩

set_option exponentiation.threshold 320 in
/-- C6 (amended): the blockwise `encode_len` is always an upper bound for the
plain formula (its output buffer accommodates `⌈8·n / log₂ 62⌉` symbols, i.e.
`62 ^ encode_len n ≥ 256 ^ n`), and it is equal to the plain formula for every
`n ≤ 226`; the first divergence is at `n = 227`. -/
theorem c6_blockwise_bounds_plain :
    (∀ n, 256 ^ n ≤ 62 ^ encode_len n) ∧
    (∀ n, n ≤ 226 → encode_len n = encodeLenSpec n) := by
  refine ⟨pow256_le_pow62_encode_len, ?_⟩
  intro n hn
  obtain ⟨h1, h2⟩ := encode_len_exact_below_227 n hn
  unfold encodeLenSpec
  symm
  refine (Nat.find_eq_iff _).mpr ⟨h1, ?_⟩
  intro k hk
  rcases h2 with h0 | hlt
  · omega
  · have hmono : (62 : Nat) ^ k ≤ 62 ^ (encode_len n - 1) :=
      Nat.pow_le_pow_right (by norm_num) (by omega)
    omega

/-- Witness for C6 (amended), instantiated at `n = 64` (two full blocks). -/
theorem c6_blockwise_bounds_plain_witness :
    256 ^ 64 ≤ 62 ^ encode_len 64 ∧ encode_len 64 = encodeLenSpec 64 :=
  ⟨c6_blockwise_bounds_plain.1 64, c6_blockwise_bounds_plain.2 64 (by decide)⟩

end FlexServ

namespace FlexServ

/-! ## Helper lemmas: CLI serialization -/

theorem toDigitsCore_append (f : Nat) :
    ∀ (n : Nat) (ds : List Char),
      Nat.toDigitsCore 10 f n ds = Nat.toDigitsCore 10 f n [] ++ ds := by
  induction f with
  | zero => intro n ds; simp [Nat.toDigitsCore]
  | succ f ih =>
    intro n ds
    simp only [Nat.toDigitsCore]
    by_cases h : n / 10 = 0
    · simp [h]
    · simp only [h, if_false]
      rw [ih (n / 10) [Nat.digitChar (n % 10)], ih (n / 10) (Nat.digitChar (n % 10) :: ds),
        List.append_assoc]
      rfl

theorem toDigitsCore_isDigit (f : Nat) :
    ∀ (n : Nat) (ds : List Char), (∀ c ∈ ds, c.isDigit) →
      ∀ c ∈ Nat.toDigitsCore 10 f n ds, c.isDigit := by
  induction f with
  | zero => intro n ds h; simpa [Nat.toDigitsCore] using h
  | succ f ih =>
    intro n ds h c hc
    have hdig : (Nat.digitChar (n % 10)).isDigit := by
      have hm : n % 10 < 10 := Nat.mod_lt _ (by omega)
      interval_cases h : n % 10 <;> decide
    simp only [Nat.toDigitsCore] at hc
    by_cases h0 : n / 10 = 0
    · simp only [h0, if_true] at hc
      rcases List.mem_cons.mp hc with rfl | hc'
      · exact hdig
      · exact h c hc'
    · simp only [h0, if_false] at hc
      refine ih (n / 10) (Nat.digitChar (n % 10) :: ds) ?_ c hc
      intro x hx
      rcases List.mem_cons.mp hx with rfl | hx'
      · exact hdig
      · exact h x hx'

theorem natRepr_isDigit (m : Nat) : ∀ c ∈ (Nat.repr m).data, c.isDigit := by
  intro c hc
  have : (Nat.repr m).data = Nat.toDigits 10 m := rfl
  rw [this] at hc
  exact toDigitsCore_isDigit (m + 1) m [] (by simp) c hc

theorem natRepr_ne_nil (m : Nat) : (Nat.repr m).data ≠ [] := by
  have : (Nat.repr m).data = Nat.toDigits 10 m := rfl
  rw [this]
  simp only [Nat.toDigits, Nat.toDigitsCore]
  by_cases h : m / 10 = 0
  · simp [h]
  · simp only [h, if_false]
    rw [toDigitsCore_append m (m / 10) [Nat.digitChar (m % 10)]]
    simp

theorem intRepr_getLast_isDigit (n : Int) :
    ∃ c, (toString n).data.getLast? = some c ∧ c.isDigit := by
  have hlast : ∀ m : Nat, ∃ c, (Nat.repr m).data.getLast? = some c ∧ c.isDigit := by
    intro m
    obtain ⟨c, hc⟩ := List.getLast?_isSome.mpr (natRepr_ne_nil m) |> Option.isSome_iff_exists.mp
    refine ⟨c, hc, ?_⟩
    exact natRepr_isDigit m c (List.mem_of_getLast?_eq_some hc)
  cases n with
  | ofNat m => exact hlast m
  | negSucc m =>
    obtain ⟨c, hc, hd⟩ := hlast (m + 1)
    refine ⟨c, ?_, hd⟩
    show (("-" : String) ++ Nat.repr (m + 1)).data.getLast? = some c
    rw [String.data_append]
    show (['-'] ++ (m + 1).repr.data).getLast? = some c
    rw [List.getLast?_append]
    simp [hc]

theorem stripJsonQuotes_of_last_digit (s : String) (c : Char)
    (hc : s.data.getLast? = some c) (hd : c.isDigit = true) :
    stripJsonQuotes s = s := by
  have hne : c ≠ '"' := by
    intro h
    subst h
    exact absurd hd (by decide)
  rw [stripJsonQuotes, if_neg]
  rintro ⟨-, hlast, -⟩
  rw [hc] at hlast
  exact hne (by simpa using hlast)

theorem stripJsonQuotes_int (n : Int) : stripJsonQuotes (toString n) = toString n := by
  obtain ⟨c, hc, hd⟩ := intRepr_getLast_isDigit n
  exact stripJsonQuotes_of_last_digit _ c hc hd

end FlexServ

namespace FlexServ

theorem unescapeQuotes_cons (c : Char) (l : List Char) (hc : c ≠ '\\') :
    unescapeQuotes (c :: l) = c :: unescapeQuotes l := by
  cases l with
  | nil => rfl
  | cons c2 rest =>
    have : ¬ (c = '\\' ∧ c2 = '"') := by
      rintro ⟨rfl, -⟩
      exact hc rfl
    simp [unescapeQuotes, this]

theorem unescapeQuotes_id (l : List Char) (h : ∀ c ∈ l, c ≠ '\\') :
    unescapeQuotes l = l := by
  induction l with
  | nil => rfl
  | cons c rest ih =>
    rw [unescapeQuotes_cons c rest (h c (by simp))]
    rw [ih (fun x hx => h x (by simp [hx]))]

theorem escapeJsonChar_plain (c : Char) (h1 : c ≠ '"') (h2 : c ≠ '\\') (h3 : 32 ≤ c.toNat) :
    escapeJsonChar c = [c] := by
  have hn : c ≠ '\n' := by rintro rfl; exact absurd h3 (by decide)
  have hr : c ≠ '\r' := by rintro rfl; exact absurd h3 (by decide)
  have ht : c ≠ '\t' := by rintro rfl; exact absurd h3 (by decide)
  have hb : c ≠ '\x08' := by rintro rfl; exact absurd h3 (by decide)
  have hf : c ≠ '\x0c' := by rintro rfl; exact absurd h3 (by decide)
  simp [escapeJsonChar, h1, h2, hn, hr, ht, hb, hf, Nat.not_lt.mpr h3]

theorem jsonString_str_plain (s : String)
    (h : ∀ c ∈ s.data, c ≠ '"' ∧ c ≠ '\\' ∧ 32 ≤ c.toNat) :
    (Value.str s).jsonString = String.mk ('"' :: (s.data ++ ['"'])) := by
  have hf : ∀ l : List Char, (∀ c ∈ l, c ≠ '"' ∧ c ≠ '\\' ∧ 32 ≤ c.toNat) →
      l.foldr (fun c acc => escapeJsonChar c ++ acc) ['"'] = l ++ ['"'] := by
    intro l
    induction l with
    | nil => intro _; rfl
    | cons c rest ih =>
      intro hl
      obtain ⟨h1, h2, h3⟩ := hl c (by simp)
      rw [List.foldr_cons, ih (fun x hx => hl x (by simp [hx])),
        escapeJsonChar_plain c h1 h2 h3]
      simp
  show String.mk ('"' :: s.data.foldr (fun c acc => escapeJsonChar c ++ acc) ['"']) = _
  rw [hf s.data h]

theorem stripJsonQuotes_str_plain (s : String)
    (h : ∀ c ∈ s.data, c ≠ '"' ∧ c ≠ '\\' ∧ 32 ≤ c.toNat) :
    stripJsonQuotes (Value.str s).jsonString = s := by
  rw [jsonString_str_plain s h]
  have hdata : (String.mk ('"' :: (s.data ++ ['"']))).data = '"' :: (s.data ++ ['"']) := rfl
  have hhead : ('"' :: (s.data ++ ['"'])).head? = some '"' := rfl
  have hlast : ('"' :: (s.data ++ ['"'])).getLast? = some '"' := by
    rw [← List.cons_append, List.getLast?_append]
    rfl
  have hlen : 2 ≤ ('"' :: (s.data ++ ['"'])).length := by
    simp
  rw [stripJsonQuotes, if_pos ⟨hhead, hlast, hlen⟩]
  have hdrop : (('"' :: (s.data ++ ['"'])).drop 1).dropLast = s.data := by
    simp
  rw [hdata, hdrop, unescapeQuotes_id s.data (fun c hc => (h c hc).2.1)]

end FlexServ

namespace FlexServ

theorem to_cli_args_foldl (entries : List (String × Value)) :
    ∀ out : List String,
      entries.foldl (fun out kv =>
        if kv.1 = "flexserv-token" ∨ kv.1 = "default-model" then out
        else
          match kv.2 with
          | .bool b => if b then out ++ ["--" ++ hyphenate kv.1] else out
          | .null => out
          | v => out ++ ["--" ++ hyphenate kv.1, stripJsonQuotes v.jsonString]) out =
      out ++ (entries.map cliTokensForEntry).flatten := by
  induction entries with
  | nil => intro out; simp
  | cons kv rest ih =>
    intro out
    have hstep : (if kv.1 = "flexserv-token" ∨ kv.1 = "default-model" then out
        else
          match kv.2 with
          | .bool b => if b then out ++ ["--" ++ hyphenate kv.1] else out
          | .null => out
          | v => out ++ ["--" ++ hyphenate kv.1, stripJsonQuotes v.jsonString]) =
        out ++ cliTokensForEntry kv := by
      by_cases hk : kv.1 = "flexserv-token" ∨ kv.1 = "default-model"
      · simp [cliTokensForEntry, hk]
      · rcases kv with ⟨k, v⟩
        cases v with
        | null => simp [cliTokensForEntry, hk]
        | bool b => cases b <;> simp [cliTokensForEntry, hk]
        | int n => simp [cliTokensForEntry, hk]
        | float r => simp [cliTokensForEntry, hk]
        | str str => simp [cliTokensForEntry, hk]
    rw [List.foldl_cons, hstep, ih, List.map_cons, List.flatten_cons, List.append_assoc]

theorem to_cli_args_eq_flatten (p : BackendParameterSet) :
    p.to_cli_args = (p.params.map cliTokensForEntry).flatten := by
  have := to_cli_args_foldl p.params []
  simpa [BackendParameterSet.to_cli_args] using this

end FlexServ

namespace FlexServ

/-- C3: the length of `encode src` depends only on `src.length` (it is
`encode_len src.length`, 0 for empty input); leading zero bytes produce
leading `'0'` symbols one-for-one (if the first `k` bytes are zero, the first
`k` output symbols are `'0'`); `encode [0, 1] = "001"`; and an all-zero input
of any length encodes to the all-`'0'` string of that fixed length. -/
theorem c3_encode_length_leading_zeros :
    (∀ src : List Nat, (encode src).length = if src = [] then 0 else encode_len src.length) ∧
    (∀ (src : List Nat) (k : Nat), k ≤ src.length → (∀ b ∈ src, b < 256) →
      (∀ b ∈ src.take k, b = 0) → (encode src).take k = List.replicate k '0') ∧
    encode [0, 1] = ['0', '0', '1'] ∧
    (∀ n : Nat, encode (List.replicate n 0) = List.replicate (encode_len n) '0') := by
  refine ⟨?_, encode_take_zeros, by decide, encode_all_zero⟩
  intro src
  by_cases h : src = []
  · simp [encode, h]
  · simp [h, encode_length src h]

/-- Witness for C3 at `src = [0, 0, 0, 5]`, `k = 3`: the three leading zero
bytes yield three leading `'0'` symbols. -/
theorem c3_encode_length_leading_zeros_witness :
    (encode [0, 0, 0, 5]).take 3 = List.replicate 3 '0' :=
  c3_encode_length_leading_zeros.2.1 [0, 0, 0, 5] 3 (by decide) (by decide) (by decide)

/-- C4 (code bug): `to_cli_args` iterates the parameter map in the map's own
(unspecified hash-table) iteration order and never sorts, so for the parameter
mapping `{z: 1, a: 2}` presented in iteration order `[z, a]` it emits
`["--z", "1", "--a", "2"]`, not the claimed `["--a", "2", "--z", "1"]`; the
output is not independent of the map's internal iteration order. -/
theorem c4_to_cli_args_not_sorted :
    BackendParameterSet.to_cli_args
      { command := ["python"], params := [("z", .int 1), ("a", .int 2)], env := [] } =
      ["--z", "1", "--a", "2"] ∧
    BackendParameterSet.to_cli_args
      { command := ["python"], params := [("a", .int 2), ("z", .int 1)], env := [] } =
      ["--a", "2", "--z", "1"] ∧
    (["--z", "1", "--a", "2"] : List String) ≠ ["--a", "2", "--z", "1"] := by
  refine ⟨by decide, by decide, by decide⟩

/-- C5 counterexample: the emitted value token is not always the value's
plain textual form.  For the 3-character string value `a`, backslash, `b`
(whose JSON text escapes the backslash), `to_cli_args` emits the 4-character
token `a`, backslash, backslash, `b`: after stripping the outer quotes only
the escaped quote is unescaped, so interior backslash escapes survive. -/
theorem c5_plain_form_fails_on_backslash :
    BackendParameterSet.to_cli_args
      { command := ["python"], params := [("k", .str "a\\b")], env := [] } =
      ["--k", "a\\\\b"] ∧
    ("a\\\\b" : String) ≠ "a\\b" :=
  ⟨by decide, by decide⟩

/-- C5 (amended): per entry of the parameter map, `to_cli_args` emits the
tokens of `cliTokensForEntry` (the whole output is their concatenation in
iteration order): nothing for the always-suppressed keys `flexserv-token` and
`default-model`; one flag token (underscores replaced by hyphens) for boolean
`true`; nothing for boolean `false` or null; and for every other value
(string, integer, or float) the flag followed by one value token — the
value's JSON text with outer quotes stripped and interior escaped quotes
unescaped.  That token is the plain textual form for integers (decimal form),
for floats (the formatter's decimal rendering, which ends in a digit) and for
strings containing no character that needs JSON escaping; strings containing
backslashes or control characters keep their JSON escapes (see the
counterexample). -/
theorem c5_to_cli_args_entry_tokens :
    (∀ p : BackendParameterSet, p.to_cli_args = (p.params.map cliTokensForEntry).flatten) ∧
    (∀ v : Value, cliTokensForEntry ("flexserv-token", v) = [] ∧
      cliTokensForEntry ("default-model", v) = []) ∧
    (∀ k : String, ¬ (k = "flexserv-token" ∨ k = "default-model") →
      cliTokensForEntry (k, .bool true) = ["--" ++ hyphenate k] ∧
      cliTokensForEntry (k, .bool false) = [] ∧
      cliTokensForEntry (k, .null) = [] ∧
      (∀ n : Int, cliTokensForEntry (k, .int n) = ["--" ++ hyphenate k, toString n]) ∧
      (∀ r : String, (∃ c, r.data.getLast? = some c ∧ c.isDigit = true) →
        cliTokensForEntry (k, .float r) = ["--" ++ hyphenate k, r]) ∧
      (∀ s : String, cliTokensForEntry (k, .str s) =
        ["--" ++ hyphenate k, stripJsonQuotes (Value.str s).jsonString]) ∧
      (∀ s : String, (∀ c ∈ s.data, c ≠ '"' ∧ c ≠ '\\' ∧ 32 ≤ c.toNat) →
        cliTokensForEntry (k, .str s) = ["--" ++ hyphenate k, s])) := by
  refine ⟨to_cli_args_eq_flatten, ?_, ?_⟩
  · intro v
    constructor <;> simp [cliTokensForEntry]
  · intro k hk
    have hstr : ∀ s : String, cliTokensForEntry (k, .str s) =
        ["--" ++ hyphenate k, stripJsonQuotes (Value.str s).jsonString] := by
      intro str
      simp [cliTokensForEntry, hk]
    refine ⟨by simp [cliTokensForEntry, hk], by simp [cliTokensForEntry, hk],
      by simp [cliTokensForEntry, hk], ?_, ?_, hstr, ?_⟩
    · intro n
      have : cliTokensForEntry (k, .int n) =
          ["--" ++ hyphenate k, stripJsonQuotes (Value.int n).jsonString] := by
        simp [cliTokensForEntry, hk]
      rw [this]
      have hjson : (Value.int n).jsonString = toString n := rfl
      rw [hjson, stripJsonQuotes_int]
    · rintro r ⟨c, hc, hd⟩
      have : cliTokensForEntry (k, .float r) =
          ["--" ++ hyphenate k, stripJsonQuotes (Value.float r).jsonString] := by
        simp [cliTokensForEntry, hk]
      rw [this]
      have hjson : (Value.float r).jsonString = r := rfl
      rw [hjson, stripJsonQuotes_of_last_digit r c hc hd]
    · intro s hs
      rw [hstr s, stripJsonQuotes_str_plain s hs]

/-- Witness for C5 (amended): a non-suppressed key with a plain string value
emits the flag and the unquoted string, and an f32 parameter key with
rendering `0.9` emits the hyphenated flag and that rendering. -/
theorem c5_to_cli_args_entry_tokens_witness :
    cliTokensForEntry ("host", .str "0.0.0.0") = ["--host", "0.0.0.0"] ∧
    cliTokensForEntry ("gpu_memory_utilization", .float "0.9") =
      ["--gpu-memory-utilization", "0.9"] := by
  have h1 := (c5_to_cli_args_entry_tokens.2.2 "host" (by decide)).2.2.2.2.2.2
    "0.0.0.0" (by decide)
  have h2 := (c5_to_cli_args_entry_tokens.2.2 "gpu_memory_utilization"
    (by decide)).2.2.2.2.1 "0.9" ⟨'9', by decide, by decide⟩
  constructor
  · rw [h1]
    decide
  · rw [h2]
    decide

end FlexServ

namespace FlexServ

/-! ## Helper lemmas: hash and identifier derivation -/

theorem alphabet_toLower : ∀ c ∈ ALPHABET, isLowerAlnum c.toLower = true := by decide

theorem isAlphanum_toLower (c : Char) (h : c.isAlphanum = true) :
    isLowerAlnum c.toLower = true := by
  have hlt : c.toNat < 123 := by
    simp only [Char.isAlphanum, Char.isAlpha, Char.isUpper, Char.isLower, Char.isDigit,
      Bool.or_eq_true, Bool.and_eq_true, decide_eq_true_eq] at h
    have heq : c.toNat = c.val.toNat := rfl
    rcases h with (⟨h1, h2⟩ | ⟨h1, h2⟩) | ⟨h1, h2⟩
    · have h3 : c.val.toNat ≤ 90 := UInt32.toNat_le_of_le (by norm_num) h2
      omega
    · have h3 : c.val.toNat ≤ 122 := UInt32.toNat_le_of_le (by norm_num) h2
      omega
    · have h3 : c.val.toNat ≤ 57 := UInt32.toNat_le_of_le (by norm_num) h2
      omega
  rw [← Char.ofNat_toNat c] at h ⊢
  generalize hg : c.toNat = n at hlt h
  interval_cases n <;> revert h <;> decide

theorem deployment_hash_shape (digest : String → List Nat)
    (hdig : ∀ s, (digest s).length = 32 ∧ ∀ b ∈ digest s, b < 256)
    (inst : FlexServInstance) :
    (encode (digest (configString inst))).length = 43 ∧
    (deployment_hash digest inst).length = 12 ∧
    (∀ c ∈ (deployment_hash digest inst).data, c ∈ ALPHABET) := by
  obtain ⟨hlen32, hbytes⟩ := hdig (configString inst)
  have hne : digest (configString inst) ≠ [] := by
    intro hnil
    rw [hnil] at hlen32
    simp at hlen32
  have h43 : (encode (digest (configString inst))).length = 43 := by
    rw [encode_length _ hne, hlen32]
    decide
  refine ⟨h43, ?_, ?_⟩
  · show ((encode (digest (configString inst))).take 12).length = 12
    rw [List.length_take, h43]
    decide
  · intro c hc
    have hc' : c ∈ encode (digest (configString inst)) := List.take_subset 12 _ hc
    exact encode_mem_alphabet _ c hc'

theorem hash_toLower_shape (digest : String → List Nat)
    (hdig : ∀ s, (digest s).length = 32 ∧ ∀ b ∈ digest s, b < 256)
    (inst : FlexServInstance) :
    ((deployment_hash digest inst).toLower).length = 12 ∧
    (∀ c ∈ (deployment_hash digest inst).toLower.data, isLowerAlnum c = true) := by
  obtain ⟨-, hlen, hmem⟩ := deployment_hash_shape digest hdig inst
  have hmap : (deployment_hash digest inst).toLower =
      String.mk ((deployment_hash digest inst).data.map Char.toLower) := by
    show String.map Char.toLower _ = _
    rw [String.map_eq]
  constructor
  · rw [hmap]
    show ((deployment_hash digest inst).data.map Char.toLower).length = 12
    rw [List.length_map]
    exact hlen
  · intro c hc
    rw [hmap] at hc
    have hc' : c ∈ (deployment_hash digest inst).data.map Char.toLower := hc
    obtain ⟨c0, hc0, rfl⟩ := List.mem_map.mp hc'
    exact alphabet_toLower c0 (hmem c0 hc0)

end FlexServ

namespace FlexServ

/-- C7: `deployment_hash` is total and returns the first 12 symbols of the
base-62 encoding of the 32-byte digest of the descriptor's canonical string
(43 symbols for a full 32-byte block), so the result is a 12-character string
over `[0-9A-Za-z]`; being a pure function of the descriptor, equal descriptors
give identical hashes. -/
theorem c7_deployment_hash_12char (digest : String → List Nat)
    (hdig : ∀ s, (digest s).length = 32 ∧ ∀ b ∈ digest s, b < 256) :
    ∀ inst : FlexServInstance,
      (encode (digest (configString inst))).length = 43 ∧
      deployment_hash digest inst =
        String.mk ((encode (digest (configString inst))).take 12) ∧
      (deployment_hash digest inst).length = 12 ∧
      (∀ c ∈ (deployment_hash digest inst).data, c ∈ ALPHABET) ∧
      (∀ inst2 : FlexServInstance, inst = inst2 →
        deployment_hash digest inst = deployment_hash digest inst2) := by
  intro inst
  obtain ⟨h43, hlen, hmem⟩ := deployment_hash_shape digest hdig inst
  exact ⟨h43, rfl, hlen, hmem, fun inst2 h => by rw [h]⟩

/-- Witness for C7 with the all-zero 32-byte digest function and a concrete
descriptor. -/
theorem c7_deployment_hash_12char_witness :
    (deployment_hash (fun _ => List.replicate 32 0)
      { tenant_url := "https://tacc.tapis.io", tapis_user := "testuser",
        default_model := "openai-community/gpt2", model_revision := none,
        hf_token := none, default_embedding_model := none,
        backend := .Transformers ["python"] }).length = 12 :=
  (c7_deployment_hash_12char (fun _ => List.replicate 32 0)
    (fun _ => ⟨List.length_replicate 32 0, fun b hb => by
      rw [List.eq_of_mem_replicate hb]; omega⟩) _).2.2.1

/-- C9: `deployment_hash` reads only the `tapis_user`, `tenant_url`,
`default_model` and `backend` fields; two instances agreeing on those four
fields hash identically whatever their `model_revision`, `hf_token` or
`default_embedding_model`. -/
theorem c9_hash_depends_on_four_fields (digest : String → List Nat)
    (i1 i2 : FlexServInstance) (hu : i1.tapis_user = i2.tapis_user)
    (ht : i1.tenant_url = i2.tenant_url) (hm : i1.default_model = i2.default_model)
    (hb : i1.backend = i2.backend) :
    deployment_hash digest i1 = deployment_hash digest i2 := by
  unfold deployment_hash configString
  rw [hu, ht, hm, hb]

/-- Witness for C9: two descriptors differing in `model_revision`, `hf_token`
and `default_embedding_model` but equal on the four hashed fields collide. -/
theorem c9_hash_depends_on_four_fields_witness :
    ({ tenant_url := "https://tacc.tapis.io", tapis_user := "u", default_model := "m",
       model_revision := some "main", hf_token := some "secret",
       default_embedding_model := some "e",
       backend := .Transformers ["python"] } : FlexServInstance) ≠
      { tenant_url := "https://tacc.tapis.io", tapis_user := "u", default_model := "m",
        model_revision := none, hf_token := none, default_embedding_model := none,
        backend := .Transformers ["python"] } ∧
    deployment_hash (fun _ => List.replicate 32 0)
      { tenant_url := "https://tacc.tapis.io", tapis_user := "u", default_model := "m",
        model_revision := some "main", hf_token := some "secret",
        default_embedding_model := some "e",
        backend := .Transformers ["python"] } =
      deployment_hash (fun _ => List.replicate 32 0)
        { tenant_url := "https://tacc.tapis.io", tapis_user := "u", default_model := "m",
          model_revision := none, hf_token := none, default_embedding_model := none,
          backend := .Transformers ["python"] } :=
  ⟨by decide,
    c9_hash_depends_on_four_fields (fun _ => List.replicate 32 0) _ _ rfl rfl rfl rfl⟩

/-- C10: the per-backend builder accessors are partial: each returns a builder
(seeded with a copy of the variant's command sequence) exactly on its own
variant and reaches the panic branch (modelled as `none`) on every other
variant. -/
theorem c10_backend_builder_accessors (b : Backend) :
    (b.transformers.isSome ↔ ∃ cmd, b = .Transformers cmd) ∧
    (b.vllm.isSome ↔ ∃ cmd, b = .VLlm cmd) ∧
    (b.sglang.isSome ↔ ∃ cmd, b = .SGLang cmd) ∧
    (b.trtllm.isSome ↔ ∃ cmd, b = .TrtLlm cmd) ∧
    (∀ cmd, b = .Transformers cmd →
      b.transformers = some (TransformersParameterSetBuilder.new cmd) ∧
      (TransformersParameterSetBuilder.new cmd).params.command = cmd) ∧
    (∀ cmd, b = .VLlm cmd → b.vllm = some (VLlmParameterSetBuilder.new cmd) ∧
      (VLlmParameterSetBuilder.new cmd).params.command = cmd) ∧
    (∀ cmd, b = .SGLang cmd → b.sglang = some (SGLangParameterSetBuilder.new cmd) ∧
      (SGLangParameterSetBuilder.new cmd).params.command = cmd) ∧
    (∀ cmd, b = .TrtLlm cmd → b.trtllm = some (TrtLlmParameterSetBuilder.new cmd) ∧
      (TrtLlmParameterSetBuilder.new cmd).params.command = cmd) := by
  cases b <;>
    simp [Backend.transformers, Backend.vllm, Backend.sglang, Backend.trtllm,
      TransformersParameterSetBuilder.new, VLlmParameterSetBuilder.new,
      SGLangParameterSetBuilder.new, TrtLlmParameterSetBuilder.new]

/-- Witness for C10 on the Transformers variant with command `["python"]`. -/
theorem c10_backend_builder_accessors_witness :
    Backend.transformers (.Transformers ["python"]) =
      some (TransformersParameterSetBuilder.new ["python"]) ∧
    (TransformersParameterSetBuilder.new ["python"]).params.command = ["python"] :=
  (c10_backend_builder_accessors (.Transformers ["python"])).2.2.2.2.1 ["python"] rfl

end FlexServ

namespace FlexServ

/-- C8: derived pod/volume identifiers are always `("p" ++ suffix, "v" ++ suffix)`
with a non-empty suffix over `[a-z0-9]` (so both match `^[pv][a-z0-9]+$`): the
suffix is the explicit deployment id filtered to ASCII alphanumerics and
lowercased when that is non-empty, otherwise the lowercased deployment hash;
the explicit UUID id `550e8400-e29b-41d4-a716-446655440000` yields exactly
`p550e8400e29b41d4a716446655440000` / `v550e8400e29b41d4a716446655440000`
(the function is pure, so repeated calls with equal inputs agree). -/
theorem c8_ids_from_options_spec (digest : String → List Nat)
    (hdig : ∀ s, (digest s).length = 32 ∧ ∀ b ∈ digest s, b < 256) :
    (∀ (server : FlexServInstance) (options : PodDeploymentOptions),
      ∃ suffix : String,
        ids_from_options digest server options = ("p" ++ suffix, "v" ++ suffix) ∧
        0 < suffix.length ∧
        ∀ c ∈ suffix.data, isLowerAlnum c = true) ∧
    (∀ (server : FlexServInstance) (options : PodDeploymentOptions),
      options.deployment_id = some "550e8400-e29b-41d4-a716-446655440000" →
      ids_from_options digest server options =
        ("p550e8400e29b41d4a716446655440000", "v550e8400e29b41d4a716446655440000")) := by
  have hhash : ∀ server : FlexServInstance,
      0 < ((deployment_hash digest server).toLower).length ∧
      ∀ c ∈ (deployment_hash digest server).toLower.data, isLowerAlnum c = true := by
    intro server
    obtain ⟨hl, hc⟩ := hash_toLower_shape digest hdig server
    exact ⟨by omega, hc⟩
  constructor
  · intro server options
    rcases hopt : options.deployment_id with - | id
    · refine ⟨(deployment_hash digest server).toLower, ?_, (hhash server).1, (hhash server).2⟩
      simp [ids_from_options, hopt]
    · by_cases hempty :
        String.mk ((id.data.filter (fun c => c.isAlphanum)).map Char.toLower) = ""
      · refine ⟨(deployment_hash digest server).toLower, ?_, (hhash server).1, (hhash server).2⟩
        simp [ids_from_options, hopt, hempty]
      · refine ⟨String.mk ((id.data.filter (fun c => c.isAlphanum)).map Char.toLower),
          ?_, ?_, ?_⟩
        · simp [ids_from_options, hopt, hempty]
        · have hne : (id.data.filter (fun c => c.isAlphanum)).map Char.toLower ≠ [] := by
            intro hnil
            exact hempty (by rw [hnil])
          show 0 < ((id.data.filter (fun c => c.isAlphanum)).map Char.toLower).length
          exact List.length_pos.mpr hne
        · intro c hc
          have hc' : c ∈ (id.data.filter (fun c => c.isAlphanum)).map Char.toLower := hc
          obtain ⟨c0, hc0, rfl⟩ := List.mem_map.mp hc'
          have := List.mem_filter.mp hc0
          exact isAlphanum_toLower c0 this.2
  · intro server options hid
    simp only [ids_from_options, hid]
    rw [if_neg (by decide)]
    decide

/-- Witness for C8 with the all-zero 32-byte digest function, on the explicit
UUID path. -/
theorem c8_ids_from_options_spec_witness :
    ids_from_options (fun _ => List.replicate 32 0)
      { tenant_url := "https://tacc.tapis.io", tapis_user := "u", default_model := "m",
        model_revision := none, hf_token := none, default_embedding_model := none,
        backend := .Transformers ["python"] }
      { deployment_id := some "550e8400-e29b-41d4-a716-446655440000",
        volume_size_mb := none, image := none, cpu_request := none, cpu_limit := none,
        mem_request_mb := none, mem_limit_mb := none, gpus := none,
        flexserv_secret := none } =
      ("p550e8400e29b41d4a716446655440000", "v550e8400e29b41d4a716446655440000") :=
  (c8_ids_from_options_spec (fun _ => List.replicate 32 0)
    (fun _ => ⟨List.length_replicate 32 0, fun b hb => by
      rw [List.eq_of_mem_replicate hb]; omega⟩)).2 _ _ rfl

end FlexServ
